import Mathlib

/-!
Verification of the QVL-search crawler (`qvl_search.py`).

The program drives a browser to load one QVL (Qualified Vendor List) table,
parses the rendered table into records, classifies records matching the
TRUSTA/T7P5 keywords, computes derived analysis fields, aggregates summary
statistics and reports them.  This file shallowly embeds the pure core of
the program — the table-row parser (`extract_qvl_table_data`), the product
analyzer (`analyze_trusta_product`), the summary aggregator
(`generate_qvl_summary`), the vendor-distribution rendering order
(`display_results`) and the top-level success/exit-code control flow
(`main` / `run_qvl_crawler`) — and settles the specification claims about
them.

Modelling conventions:
* Python strings are Lean `String`s; `str.strip` / `str.upper` /
  `str.lower` / substring `in` are embedded below on `List Char`.
* Python `float` values are modelled as exact rationals `ℚ`; every number
  the program manipulates originates from a decimal literal in a cell, so
  all arithmetic performed (division by 1000, addition, comparison with 0)
  is exact decimal arithmetic.
* Python `dict`s (insertion-ordered) are association lists with in-place
  update (`dictInsert`, `bumpVendor`), preserving insertion order.
* A `try/except: pass` around a computation that can only fail by the
  regex finding no number is embedded as `Option.getD _ 0`.
-/

namespace QVL

/-- Python `str.strip()` on the character list: drop leading and trailing
whitespace. -/
def stripChars (l : List Char) : List Char :=
  ((l.dropWhile Char.isWhitespace).reverse.dropWhile Char.isWhitespace).reverse

/-- Python `str.strip()`. -/
def strip (s : String) : String := ⟨stripChars s.data⟩

/-- Python `str.upper()` (ASCII letters, as used by the program's keyword
and unit tests). -/
def upperStr (s : String) : String := ⟨s.data.map Char.toUpper⟩

/-- Python `str.lower()` (ASCII letters). -/
def lowerStr (s : String) : String := ⟨s.data.map Char.toLower⟩

/-- `beginsWith needle hay`: `needle` is an initial segment of `hay`. -/
def beginsWith : List Char → List Char → Bool
  | [], _ => true
  | _ :: _, [] => false
  | a :: as, b :: bs => a == b && beginsWith as bs

/-- `hasSub needle hay`: `needle` occurs contiguously inside `hay`. -/
def hasSub (needle : List Char) : List Char → Bool
  | [] => needle.isEmpty
  | c :: rest => beginsWith needle (c :: rest) || hasSub needle rest

/-- Python substring test `needle in hay`. -/
def containsStr (hay needle : String) : Bool := hasSub needle.data hay.data

/-- Numeric value of a list of decimal digit characters. -/
def natOfDigits (l : List Char) : ℕ :=
  l.foldl (fun n c => 10 * n + (c.toNat - 48)) 0

/-- The first match of the regex `\d+\.?\d*` in the character list, as an
exact rational: scan to the first digit, take the maximal digit run, an
optional single decimal point, and the maximal following digit run
(`re.findall(r'(\d+\.?\d*)', s)[0]` passed to `float`). `none` when the
string holds no digit (the `IndexError` branch of the source's
`try/except`). -/
def firstNumChars : List Char → Option ℚ
  | [] => none
  | c :: cs =>
    if c.isDigit then
      let ds := List.takeWhile Char.isDigit (c :: cs)
      let rest := List.dropWhile Char.isDigit (c :: cs)
      let fs := match rest with
        | '.' :: r => r.takeWhile Char.isDigit
        | _ => []
      some ((natOfDigits ds : ℚ) + (natOfDigits fs : ℚ) / (10 : ℚ) ^ fs.length)
    else firstNumChars cs

/-- First decimal number found in a string, if any. -/
def firstNumber (s : String) : Option ℚ := firstNumChars s.data

/-- `capacity_tb` computation of `analyze_trusta_product` (lines 174–186):
branch on whether the upper-cased capacity text contains `"TB"` or `"GB"`,
then extract the first decimal number; a failed extraction is swallowed by
the source's bare `except` and leaves the initial value `0`. -/
def capacityTB (capacity : String) : ℚ :=
  if containsStr (upperStr capacity) "TB" then
    (firstNumber capacity).getD 0
  else if containsStr (upperStr capacity) "GB" then
    ((firstNumber capacity).map (· / 1000)).getD 0
  else 0

/-- The capacity rule as the specification words it: first extract the
first decimal number from the field; then `TB` keeps it, `GB` divides it by
1000, anything else (or no number) gives 0. -/
def capacityTBSpec (capacity : String) : ℚ :=
  match firstNumber capacity with
  | none => 0
  | some n =>
    if containsStr (upperStr capacity) "TB" then n
    else if containsStr (upperStr capacity) "GB" then n / 1000
    else 0

/-- A parsed table row: a Python dict from header name to cell text, as an
insertion-ordered association list. -/
abbrev ProductRecord := List (String × String)

/-- Python `dict.get(k)`: value of the first (and, for a dict, only)
binding of `k`. -/
def recGet (r : ProductRecord) (k : String) : Option String :=
  (r.find? (fun p => p.1 == k)).map (fun p => p.2)

/-- Python `dict.get(k, d)`. -/
def recGetD (r : ProductRecord) (k d : String) : String := (recGet r k).getD d

/-- Python `d[k] = v` on an insertion-ordered dict: update the existing
binding in place, else append a new binding. -/
def dictInsert (d : ProductRecord) (k v : String) : ProductRecord :=
  match d with
  | [] => [(k, v)]
  | (k', v') :: rest =>
    if k' = k then (k, v) :: rest else (k', v') :: dictInsert rest k v

/-- The `product_data` dict built by the row loop (lines 119–122):
`for i, cell in enumerate(cells): if i < len(headers):
product_data[headers[i]] = cell.text.strip()`. -/
def buildRecord (headers cells : List String) : ProductRecord :=
  ((headers.zip cells).map (fun p => (p.1, strip p.2))).foldl
    (fun d q => dictInsert d q.1 q.2) []

/-- The derived attributes computed by `analyze_trusta_product`. -/
structure Analysis where
  is_gen5 : Bool
  is_nvme : Bool
  form_factor_type : String
  capacity_tb : ℚ
  interface_details : String
  vroc_support : Bool
deriving DecidableEq

/-- `analyze_trusta_product` (lines 152–195). -/
def analyze (r : ProductRecord) : Analysis :=
  let speed := lowerStr (recGetD r "Interface Speed" "")
  let iface := lowerStr (recGetD r "Interface" "")
  let other := lowerStr (recGetD r "Other" "")
  let remark := lowerStr (recGetD r "Remark" "")
  { is_gen5 := containsStr speed "gen5" || containsStr speed "gen 5"
    is_nvme := containsStr iface "nvme"
    form_factor_type := recGetD r "Form Factor" ""
    capacity_tb := capacityTB (recGetD r "Capacity" "")
    interface_details :=
      recGetD r "Interface" "" ++ " - " ++ recGetD r "Interface Speed" ""
    vroc_support := containsStr other "vroc" || containsStr remark "vroc" }

/-- The keyword filter of the row loop (lines 129–134): vendor or product
name contains `TRUSTA` (upper-cased), or product name or series contains
`T7P5`. -/
def matchesTrusta (r : ProductRecord) : Bool :=
  let vendor := upperStr (recGetD r "Vendor" "")
  let name := upperStr (recGetD r "Product Name" "")
  let series := upperStr (recGetD r "Series" "")
  containsStr vendor "TRUSTA" || containsStr name "TRUSTA" ||
    containsStr name "T7P5" || containsStr series "T7P5"

/-- A product entry as it ends up in the result lists: the parsed record
plus, for matched products, the `"analysis"` value the loop stores into
the same dict object. -/
structure Product where
  record : ProductRecord
  analysis : Option Analysis
deriving DecidableEq

/-- One iteration of the row loop (lines 113–125) up to the validity
gates.  `some none` means the row is skipped (the loop's `continue`),
`some (some r)` that record `r` is kept.  `none` models the one uncaught
exception path: with no headers and no cells, `cells[0].text` raises
`IndexError`, which the surrounding `try` turns into a failure of the
whole extraction. -/
def rowRecord (headers cells : List String) : Option (Option ProductRecord) :=
  if cells.length < headers.length then some none
  else if cells.isEmpty then none
  else if strip (cells.headD "") = "" then some none
  else
    let record := buildRecord headers cells
    if recGetD record "Product Name" "" = "" then some none
    else some (some record)

/-- The row loop of `extract_qvl_table_data` (lines 113–141), carrying the
`all_products` and `trusta_products` accumulators.  A matched row's
product dict receives the `"analysis"` entry and the very same object is
appended to both lists. -/
def extractGo (headers : List String) :
    List (List String) → List Product → List Product →
    Option (List Product × List Product)
  | [], all, tr => some (all, tr)
  | cells :: rest, all, tr =>
    match rowRecord headers cells with
    | none => none
    | some none => extractGo headers rest all tr
    | some (some r) =>
      if matchesTrusta r then
        extractGo headers rest (all ++ [⟨r, some (analyze r)⟩])
          (tr ++ [⟨r, some (analyze r)⟩])
      else
        extractGo headers rest (all ++ [⟨r, none⟩]) tr

/-- `extract_qvl_table_data` on an already-located table: the final
`(all_nvme_products, trusta_products_found)` pair, or `none` when the
extraction fails. -/
def extractTable (headers : List String) (rows : List (List String)) :
    Option (List Product × List Product) :=
  extractGo headers rows [] []

/-- Case-insensitive substring test, as the specification words the
membership predicate. -/
def containsCI (hay needle : String) : Bool :=
  containsStr (upperStr hay) (upperStr needle)

/-- The list of all products extracted from a table, without the
classification split. -/
def allProducts (headers : List String) (rows : List (List String)) :
    Option (List Product) :=
  (extractTable headers rows).map (fun p => p.1)

/-- C1: the capacity computed by the analyzer is total (it is a Lean
function, the source's `try/except` being embedded as `Option.getD`) and
follows the spec's rules: the first decimal number is extracted; a
capacity text containing `TB` (upper-cased) keeps it, one containing `GB`
divides it by 1000, otherwise — or when no number exists — the result is
0.  Concretely `"4TB"` gives 4, `"512GB"` gives 0.512, `"N/A"` and `""`
give 0. -/
theorem claim1_capacity_parse :
    (∀ s : String, capacityTB s = capacityTBSpec s) ∧
    capacityTB "4TB" = 4 ∧
    capacityTB "512GB" = 512 / 1000 ∧
    capacityTB "N/A" = 0 ∧
    capacityTB "" = 0 := by
  refine ⟨fun s => ?_, ?_, ?_, by rfl, by rfl⟩
  · unfold capacityTB capacityTBSpec
    cases h : firstNumber s <;> simp [h]
  · simp +decide [capacityTB, containsStr, upperStr, hasSub, beginsWith,
      firstNumber, firstNumChars, natOfDigits]
  · simp +decide [capacityTB, containsStr, upperStr, hasSub, beginsWith,
      firstNumber, firstNumChars, natOfDigits]

end QVL

namespace QVL

/-- C3: a record is classified exactly when one of the four
case-insensitive substring tests succeeds — vendor contains `TRUSTA`,
product name contains `TRUSTA`, product name contains `T7P5`, or series
contains `T7P5`; including the spec's four concrete examples. -/
theorem claim3_keyword_match :
    (∀ r : ProductRecord,
      matchesTrusta r = true ↔
        (containsCI (recGetD r "Vendor" "") "TRUSTA" = true ∨
         containsCI (recGetD r "Product Name" "") "TRUSTA" = true ∨
         containsCI (recGetD r "Product Name" "") "T7P5" = true ∨
         containsCI (recGetD r "Series" "") "T7P5" = true)) ∧
    matchesTrusta [("Vendor", "TRUSTA Inc")] = true ∧
    matchesTrusta [("Product Name", "XYZ T7P5-2TB")] = true ∧
    matchesTrusta [("Series", "t7p5 series")] = true ∧
    matchesTrusta [("Vendor", "Samsung"), ("Product Name", "980 Pro")] = false := by
  refine ⟨fun r => ?_, by decide, by decide, by decide, by decide⟩
  have h1 : upperStr "TRUSTA" = "TRUSTA" := by decide
  have h2 : upperStr "T7P5" = "T7P5" := by decide
  simp only [matchesTrusta, containsCI, h1, h2, Bool.or_eq_true, or_assoc]

end QVL

namespace QVL

/-- Loop invariant of `extractGo`: the trusta accumulator is the matched
filter of the all-products accumulator, and every matched product carries
the analysis stored into its dict. -/
theorem extractGo_inv (headers : List String) :
    ∀ (rows : List (List String)) (all tr : List Product)
      (res : List Product × List Product),
      tr = all.filter (fun p => matchesTrusta p.record) →
      (∀ p ∈ all, matchesTrusta p.record = true →
        p.analysis = some (analyze p.record)) →
      extractGo headers rows all tr = some res →
      res.2 = res.1.filter (fun p => matchesTrusta p.record) ∧
      ∀ p ∈ res.1, matchesTrusta p.record = true →
        p.analysis = some (analyze p.record) := by
  intro rows
  induction rows with
  | nil =>
    intro all tr res h1 h2 hres
    simp only [extractGo, Option.some.injEq] at hres
    subst hres
    exact ⟨h1, h2⟩
  | cons cells rest ih =>
    intro all tr res h1 h2 hres
    simp only [extractGo] at hres
    cases hrow : rowRecord headers cells with
    | none => rw [hrow] at hres; cases hres
    | some o =>
      rw [hrow] at hres
      cases o with
      | none => exact ih all tr res h1 h2 hres
      | some r =>
        dsimp only at hres
        by_cases hm : matchesTrusta r = true
        · rw [if_pos hm] at hres
          refine ih _ _ res ?_ ?_ hres
          · simp [List.filter_append, h1, hm]
          · intro p hp hpm
            rcases List.mem_append.1 hp with h | h
            · exact h2 p h hpm
            · simp only [List.mem_singleton] at h
              subst h; rfl
        · rw [if_neg hm] at hres

          refine ih _ _ res ?_ ?_ hres
          · simp only [Bool.not_eq_true] at hm
            simp [List.filter_append, h1, hm]
          · intro p hp hpm
            rcases List.mem_append.1 hp with h | h
            · exact h2 p h hpm
            · simp only [List.mem_singleton] at h
              subst h
              simp only at hpm
              exact absurd hpm hm

/-- C4: whenever the extraction succeeds, the classified subset
`trusta_products_found` is an index-monotonic subsequence (`List.Sublist`)
of the full sequence `all_nvme_products`; in particular every classified
product also appears in the full sequence. -/
theorem claim4_classified_subsequence (headers : List String)
    (rows : List (List String)) (all tr : List Product)
    (h : extractTable headers rows = some (all, tr)) :
    tr.Sublist all ∧ ∀ p ∈ tr, p ∈ all := by
  have hinv := extractGo_inv headers rows [] [] (all, tr) rfl (by simp) h
  have hs : tr.Sublist all := by
    rw [show tr = (all, tr).2 from rfl, hinv.1]
    exact List.filter_sublist all
  exact ⟨hs, fun p hp => hs.mem hp⟩

/-- Witness for C4 at a concrete two-row table: the row `abc` does not
match, the row `T7P5` does, and the classified subset is a sublist of the
full list. -/
theorem claim4_witness :
    ([⟨[("Product Name", "T7P5")],
        some ⟨false, false, "", 0, " - ", false⟩⟩] : List Product).Sublist
      [⟨[("Product Name", "abc")], none⟩,
       ⟨[("Product Name", "T7P5")], some ⟨false, false, "", 0, " - ", false⟩⟩] ∧
    ∀ p ∈ ([⟨[("Product Name", "T7P5")],
        some ⟨false, false, "", 0, " - ", false⟩⟩] : List Product),
      p ∈ [⟨[("Product Name", "abc")], none⟩,
       ⟨[("Product Name", "T7P5")], some ⟨false, false, "", 0, " - ", false⟩⟩] :=
  claim4_classified_subsequence ["Product Name"] [["abc"], ["T7P5"]] _ _ (by decide)

/-- C9: the dict appended to `all_nvme_products` is the same object later
given the `"analysis"` key and appended to `trusta_products_found`;
consequently, after a successful extraction the classified list is exactly
the matched filter of the full list, every matched entry of the full list
carries its analysis, and every classified entry carries its analysis. -/
theorem claim9_shared_analysis (headers : List String)
    (rows : List (List String)) (all tr : List Product)
    (h : extractTable headers rows = some (all, tr)) :
    tr = all.filter (fun p => matchesTrusta p.record) ∧
    (∀ p ∈ all, matchesTrusta p.record = true →
      p.analysis = some (analyze p.record)) ∧
    (∀ p ∈ tr, p.analysis = some (analyze p.record)) := by
  have hinv := extractGo_inv headers rows [] [] (all, tr) rfl (by simp) h
  refine ⟨hinv.1, hinv.2, fun p hp => ?_⟩
  have : p ∈ all.filter (fun p => matchesTrusta p.record) := hinv.1 ▸ hp
  have hm := List.of_mem_filter this
  exact hinv.2 p (List.mem_of_mem_filter this) hm

/-- Witness for C9 at a concrete one-row matching table. -/
theorem claim9_witness :
    ([⟨[("Product Name", "T7P5 X")],
        some ⟨false, false, "", 0, " - ", false⟩⟩] : List Product) =
      ([⟨[("Product Name", "T7P5 X")],
        some ⟨false, false, "", 0, " - ", false⟩⟩] : List Product).filter
        (fun p => matchesTrusta p.record) ∧
    (∀ p ∈ ([⟨[("Product Name", "T7P5 X")],
        some ⟨false, false, "", 0, " - ", false⟩⟩] : List Product),
      matchesTrusta p.record = true →
        p.analysis = some (analyze p.record)) ∧
    (∀ p ∈ ([⟨[("Product Name", "T7P5 X")],
        some ⟨false, false, "", 0, " - ", false⟩⟩] : List Product),
      p.analysis = some (analyze p.record)) :=
  claim9_shared_analysis ["Product Name"] [["T7P5 X"]] _ _ (by decide)

end QVL

namespace QVL

/-- Stripping the empty string gives the empty string. -/
theorem strip_nil : strip "" = "" := rfl

/-- Inserting a key not yet bound appends the new binding. -/
theorem dictInsert_fresh (d : ProductRecord) (k v : String)
    (h : ∀ p ∈ d, p.1 ≠ k) : dictInsert d k v = d ++ [(k, v)] := by
  induction d with
  | nil => rfl
  | cons q rest ih =>
    have hq : q.1 ≠ k := h q (List.mem_cons_self q rest)
    simp only [dictInsert, if_neg hq, List.cons_append, List.cons.injEq, true_and]
    exact ih fun p hp => h p (List.mem_cons_of_mem q hp)

/-- Folding `dictInsert` over bindings whose keys are all distinct and
fresh appends them in order. -/
theorem foldl_dictInsert_fresh :
    ∀ (pairs : List (String × String)) (acc : ProductRecord),
      (acc.map Prod.fst ++ pairs.map Prod.fst).Nodup →
      pairs.foldl (fun d q => dictInsert d q.1 q.2) acc = acc ++ pairs := by
  intro pairs
  induction pairs with
  | nil => intro acc _; simp
  | cons q rest ih =>
    intro acc hnd
    have hfresh : ∀ p ∈ acc, p.1 ≠ q.1 := by
      intro p hp
      have hdisj := (List.nodup_append.1 hnd).2.2
      intro he
      exact hdisj (List.mem_map_of_mem Prod.fst hp) (by simp [he])
    have hstep : dictInsert acc q.1 q.2 = acc ++ [q] := by
      simpa using dictInsert_fresh acc q.1 q.2 hfresh
    simp only [List.foldl_cons, hstep]
    rw [ih (acc ++ [q]) (by simpa [List.append_assoc] using hnd)]
    simp

/-- With duplicate-free headers, the row dict is the zip of headers with
the trimmed cells, in column order. -/
theorem buildRecord_eq (headers cells : List String) (hnd : headers.Nodup)
    (hlen : headers.length ≤ cells.length) :
    buildRecord headers cells =
      (headers.zip cells).map (fun p => (p.1, strip p.2)) := by
  unfold buildRecord
  have hkeys : ((headers.zip cells).map (fun p => (p.1, strip p.2))).map Prod.fst
      = headers := by
    rw [List.map_map]
    have : (Prod.fst ∘ fun p : String × String => (p.1, strip p.2)) = Prod.fst := by
      funext p; rfl
    rw [this, List.map_fst_zip headers cells hlen]
  have := foldl_dictInsert_fresh
    ((headers.zip cells).map (fun p => (p.1, strip p.2))) []
    (by simpa [hkeys] using hnd)
  simpa using this

/-- Looking up the `j`-th key of a duplicate-free association list gives
the `j`-th value. -/
theorem recGet_assoc_nodup :
    ∀ (d : ProductRecord), (d.map Prod.fst).Nodup →
      ∀ j (hj : j < d.length),
        recGet d (d.get ⟨j, hj⟩).1 = some (d.get ⟨j, hj⟩).2 := by
  intro d
  induction d with
  | nil => intro _ j hj; cases hj
  | cons p rest ih =>
    intro hnd j hj
    cases j with
    | zero => simp [recGet]
    | succ j =>
      have hj' : j < rest.length := Nat.lt_of_succ_lt_succ hj
      have hkey : (rest.get ⟨j, hj'⟩).1 ∈ rest.map Prod.fst :=
        List.mem_map_of_mem Prod.fst (rest.get_mem j hj')
      have hne : p.1 ≠ (rest.get ⟨j, hj'⟩).1 := by
        intro he
        exact (List.nodup_cons.1 hnd).1 (he ▸ hkey)
      have hb : (p.1 == (rest.get ⟨j, hj'⟩).1) = false := beq_eq_false_iff_ne.2 hne
      have hrw : recGet (p :: rest) (rest.get ⟨j, hj'⟩).1
          = recGet rest (rest.get ⟨j, hj'⟩).1 := by
        simp only [recGet, List.find?, hb]
      have hget : ((p :: rest).get ⟨j + 1, hj⟩) = rest.get ⟨j, hj'⟩ := rfl
      rw [hget, hrw]
      exact ih (List.nodup_cons.1 hnd).2 j hj'

end QVL

namespace QVL

/-- Looking up header `j` in a built row dict gives the trimmed `j`-th
cell. -/
theorem recGet_buildRecord (headers cells : List String) (hnd : headers.Nodup)
    (hlen : headers.length ≤ cells.length) (j : ℕ) (hj : j < headers.length) :
    recGet (buildRecord headers cells) (headers.get ⟨j, hj⟩) =
      some (strip (cells.getD j "")) := by
  have hble := buildRecord_eq headers cells hnd hlen
  have hzlen : (headers.zip cells).length = headers.length := by
    rw [List.length_zip]; omega
  have hdlen : ((headers.zip cells).map (fun p => (p.1, strip p.2))).length
      = headers.length := by simp [hzlen]
  have hkeys : (((headers.zip cells).map (fun p => (p.1, strip p.2))).map
      Prod.fst).Nodup := by
    rw [List.map_map]
    have : (Prod.fst ∘ fun p : String × String => (p.1, strip p.2)) = Prod.fst := by
      funext p; rfl
    rw [this, List.map_fst_zip headers cells hlen]
    exact hnd
  have hj' : j < ((headers.zip cells).map (fun p => (p.1, strip p.2))).length := by
    omega
  have hjz : j < (headers.zip cells).length := by omega
  have hjc : j < cells.length := by omega
  have hget : (((headers.zip cells).map (fun p => (p.1, strip p.2))).get ⟨j, hj'⟩)
      = (headers.get ⟨j, hj⟩, strip (cells.get ⟨j, hjc⟩)) := by
    rw [List.get_eq_getElem, List.getElem_map]
    rw [List.getElem_zip]; simp
  have := recGet_assoc_nodup _ hkeys j hj'
  rw [hget] at this
  rw [hble, List.getD_eq_getElem cells "" hjc]
  simpa using this

end QVL

namespace QVL

/-- The `"Product Name"` entry of a built row dict is the trimmed cell in
the Product-Name column. -/
theorem recGetD_productName (headers cells : List String) (hnd : headers.Nodup)
    (hlen : headers.length ≤ cells.length) (hmem : "Product Name" ∈ headers) :
    recGetD (buildRecord headers cells) "Product Name" "" =
      strip (cells.getD (headers.indexOf "Product Name") "") := by
  have hj : headers.indexOf "Product Name" < headers.length :=
    List.indexOf_lt_length.2 hmem
  have hname : headers.get ⟨headers.indexOf "Product Name", hj⟩ = "Product Name" := by
    rw [List.get_eq_getElem]
    exact List.getElem_indexOf hj
  have := recGet_buildRecord headers cells hnd hlen _ hj
  rw [hname] at this
  simp [recGetD, this]

/-- A row with fewer cells than headers, or a nonempty row whose first
cell trims to empty, is skipped — the loop's `continue`, not an error. -/
theorem rowRecord_skip (headers cells : List String)
    (h : cells.length < headers.length ∨
      (cells ≠ [] ∧ strip (cells.headD "") = "")) :
    rowRecord headers cells = some none := by
  rcases h with h | ⟨hne, hfirst⟩
  · simp [rowRecord, h]
  · have hlen : ¬ cells.length < headers.length ∨ cells.length < headers.length :=
      (em _).symm
    by_cases hcase : cells.length < headers.length
    · simp [rowRecord, hcase]
    · have hemp : cells.isEmpty = false := by
        cases cells with
        | nil => exact absurd rfl hne
        | cons a l => rfl
      have hfirst' : strip (cells.head?.getD "") = "" := by
        simpa using hfirst
      simp [rowRecord, hcase, hemp, hfirst']

/-- A row with enough cells, a nonempty trimmed first cell and a nonempty
`"Product Name"` entry is kept. -/
theorem rowRecord_valid (headers cells : List String)
    (hlen : headers.length ≤ cells.length)
    (hfirst : strip (cells.headD "") ≠ "")
    (hpn : recGetD (buildRecord headers cells) "Product Name" "" ≠ "") :
    rowRecord headers cells = some (some (buildRecord headers cells)) := by
  have h1 : ¬ cells.length < headers.length := by omega
  have hne : cells ≠ [] := by
    intro he
    subst he
    exact hfirst rfl
  have hemp : cells.isEmpty = false := by
    cases cells with
    | nil => exact absurd rfl hne
    | cons a l => rfl
  have hfirst' : ¬ strip (cells.head?.getD "") = "" := by
    simpa using hfirst
  simp [rowRecord, h1, hemp, hfirst', hpn]

/-- Zipping ignores cells beyond the header count. -/
theorem zip_take_self : ∀ (l1 l2 : List String),
    l1.zip (l2.take l1.length) = l1.zip l2 := by
  intro l1
  induction l1 with
  | nil => intro l2; rfl
  | cons a l ih =>
    intro l2
    cases l2 with
    | nil => rfl
    | cons b m => simp [List.zip_cons_cons, ih m]

/-- Cells beyond the header count do not affect the built record. -/
theorem buildRecord_take (headers cells : List String) :
    buildRecord headers cells = buildRecord headers (cells.take headers.length) := by
  unfold buildRecord
  rw [zip_take_self]

/-- When every row passes the validity gates, the loop keeps one record
per row, in order. -/
theorem extractGo_records (headers : List String) :
    ∀ (rows : List (List String)) (all tr : List Product),
      (∀ cells ∈ rows,
        rowRecord headers cells = some (some (buildRecord headers cells))) →
      ∃ res, extractGo headers rows all tr = some res ∧
        res.1.map Product.record =
          all.map Product.record ++ rows.map (fun c => buildRecord headers c) := by
  intro rows
  induction rows with
  | nil =>
    intro all tr _
    exact ⟨(all, tr), rfl, by simp⟩
  | cons cells rest ih =>
    intro all tr hrows
    have hrow := hrows cells (List.mem_cons_self cells rest)
    have hrest : ∀ c ∈ rest,
        rowRecord headers c = some (some (buildRecord headers c)) :=
      fun c hc => hrows c (List.mem_cons_of_mem cells hc)
    by_cases hm : matchesTrusta (buildRecord headers cells) = true
    · obtain ⟨res, hres, hmap⟩ := ih
        (all ++ [⟨buildRecord headers cells, some (analyze (buildRecord headers cells))⟩])
        (tr ++ [⟨buildRecord headers cells, some (analyze (buildRecord headers cells))⟩])
        hrest
      refine ⟨res, ?_, ?_⟩
      · simp only [extractGo, hrow]
        rw [if_pos hm]
        exact hres
      · rw [hmap]; simp
    · obtain ⟨res, hres, hmap⟩ := ih
        (all ++ [⟨buildRecord headers cells, none⟩]) tr hrest
      refine ⟨res, ?_, ?_⟩
      · simp only [extractGo, hrow]
        rw [if_neg hm]
        exact hres
      · rw [hmap]; simp

end QVL

namespace QVL

/-- C2, counterexample: the header list `["Vendor"]` with the single row
`["X"]` satisfies the claim's hypotheses — the row has at least as many
cells as headers and a nonempty trimmed first cell — yet parsing yields 0
records, not 1: the record is discarded by the `"Product Name"` validity
gate of line 124. -/
theorem claim2_counterexample :
    (["Vendor"] : List String).length ≤ (["X"] : List String).length ∧
    strip "X" ≠ "" ∧
    ([["X"]] : List (List String)).length = 1 ∧
    allProducts ["Vendor"] [["X"]] = some [] := by decide

/-- C2, amended: for duplicate-free headers containing `"Product Name"`
and rows that each have at least as many cells as headers, a nonempty
trimmed first cell and a nonempty trimmed cell in the Product-Name
column, parsing yields exactly one record per row, in order, each with
exactly `|H|` fields mapping header `H[j]` to the trimmed cell `R[i][j]`;
a row with fewer cells than headers or an empty trimmed first cell is
skipped (not an error), and cells beyond the headers are ignored. -/
theorem claim2_rows_to_records (headers : List String) (rows : List (List String))
    (hnd : headers.Nodup) (hmem : "Product Name" ∈ headers)
    (hrows : ∀ cells ∈ rows,
      headers.length ≤ cells.length ∧ strip (cells.headD "") ≠ "" ∧
      strip (cells.getD (headers.indexOf "Product Name") "") ≠ "") :
    ∃ all tr, extractTable headers rows = some (all, tr) ∧
      all.length = rows.length ∧
      all.map Product.record = rows.map (fun c => buildRecord headers c) ∧
      (∀ cells ∈ rows,
        (buildRecord headers cells).length = headers.length ∧
        ∀ j, (hj : j < headers.length) →
          recGet (buildRecord headers cells) (headers.get ⟨j, hj⟩) =
            some (strip (cells.getD j ""))) ∧
      (∀ hs2 cs2 : List String,
        cs2.length < hs2.length ∨ (cs2 ≠ [] ∧ strip (cs2.headD "") = "") →
          rowRecord hs2 cs2 = some none) ∧
      (∀ hs2 cs2 : List String,
        buildRecord hs2 cs2 = buildRecord hs2 (cs2.take hs2.length)) := by
  have hvalid : ∀ cells ∈ rows,
      rowRecord headers cells = some (some (buildRecord headers cells)) := by
    intro cells hc
    obtain ⟨hlen, hfirst, hpn⟩ := hrows cells hc
    refine rowRecord_valid headers cells hlen hfirst ?_
    rw [recGetD_productName headers cells hnd hlen hmem]
    exact hpn
  obtain ⟨res, hres, hmap⟩ := extractGo_records headers rows [] [] hvalid
  refine ⟨res.1, res.2, hres, ?_, ?_, ?_, ?_, ?_⟩
  · have := congrArg List.length hmap
    simpa using this
  · simpa using hmap
  · intro cells hc
    obtain ⟨hlen, _, _⟩ := hrows cells hc
    constructor
    · rw [buildRecord_eq headers cells hnd hlen]
      simp [List.length_zip]
      omega
    · intro j hj
      exact recGet_buildRecord headers cells hnd hlen j hj
  · exact fun hs2 cs2 h => rowRecord_skip hs2 cs2 h
  · exact fun hs2 cs2 => buildRecord_take hs2 cs2

/-- Witness for the amended C2 at a one-row, two-header table. -/
theorem claim2_rows_to_records_witness :
    ∃ all tr,
      extractTable ["Product Name", "Vendor"] [["T7P5-4TB", "TRUSTA"]] = some (all, tr) ∧
      all.length = ([["T7P5-4TB", "TRUSTA"]] : List (List String)).length ∧
      all.map Product.record =
        ([["T7P5-4TB", "TRUSTA"]] : List (List String)).map
          (fun c => buildRecord ["Product Name", "Vendor"] c) ∧
      (∀ cells ∈ ([["T7P5-4TB", "TRUSTA"]] : List (List String)),
        (buildRecord ["Product Name", "Vendor"] cells).length =
          (["Product Name", "Vendor"] : List String).length ∧
        ∀ j, (hj : j < (["Product Name", "Vendor"] : List String).length) →
          recGet (buildRecord ["Product Name", "Vendor"] cells)
              ((["Product Name", "Vendor"] : List String).get ⟨j, hj⟩) =
            some (strip (cells.getD j ""))) ∧
      (∀ hs2 cs2 : List String,
        cs2.length < hs2.length ∨ (cs2 ≠ [] ∧ strip (cs2.headD "") = "") →
          rowRecord hs2 cs2 = some none) ∧
      (∀ hs2 cs2 : List String,
        buildRecord hs2 cs2 = buildRecord hs2 (cs2.take hs2.length)) :=
  claim2_rows_to_records ["Product Name", "Vendor"] [["T7P5-4TB", "TRUSTA"]]
    (by decide) (by decide) (by decide)

end QVL

namespace QVL

/-- `product.get("Vendor", "Unknown")` of the vendor-distribution loop
(line 218). -/
def vendorOf (p : Product) : String := recGetD p.record "Vendor" "Unknown"

/-- `vendor_counts[vendor] = vendor_counts.get(vendor, 0) + 1` on an
insertion-ordered dict: bump the existing binding in place, else append a
new binding with count 1. -/
def bumpVendor (acc : List (String × ℕ)) (v : String) : List (String × ℕ) :=
  match acc with
  | [] => [(v, 1)]
  | (k, n) :: rest =>
    if k = v then (k, n + 1) :: rest else (k, n) :: bumpVendor rest v

/-- The `vendor_counts` dict of `generate_qvl_summary` (lines 216–219),
iterating over the full product list. -/
def vendorCounts (products : List Product) : List (String × ℕ) :=
  products.foldl (fun acc p => bumpVendor acc (vendorOf p)) []

/-- Sum of the counts of a vendor distribution. -/
def sumCounts (acc : List (String × ℕ)) : ℕ :=
  (acc.map (fun p => p.2)).sum

/-- Count looked up for one vendor key, 0 when absent. -/
def lookupCount (acc : List (String × ℕ)) (v : String) : ℕ :=
  ((acc.find? (fun p => p.1 == v)).map (fun p => p.2)).getD 0

/-- The raw `capacity_options` list of `generate_qvl_summary` (lines
202–214): one `"<value>TB"` string per classified product whose
`capacity_tb` is positive, in list order. -/
def capacityOptionsRaw (render : ℚ → String) (trusta : List Product) : List String :=
  trusta.filterMap (fun p =>
    let cap := ((p.analysis.map (fun a => a.capacity_tb)).getD 0)
    if 0 < cap then some (render cap ++ "TB") else none)

/-- Digits of the fractional part `r / den` by decimal long division,
fuel-bounded; empty once the remainder is 0. -/
def fracDigits : ℕ → ℕ → ℕ → List Char
  | 0, _, _ => []
  | _ + 1, 0, _ => []
  | fuel + 1, r, den =>
    Char.ofNat (48 + 10 * r / den) :: fracDigits fuel (10 * r % den) den

/-- Python's `f"{x}"` rendering of the non-negative float `x`, whose exact
value is the rational `q` with a terminating decimal expansion (every
capacity is parsed from a decimal literal and possibly divided by 1000, so
its denominator divides a power of 10): integer part, a dot, and the
fractional digits, `"0"` when the fraction is empty — `4` renders as
`"4.0"`. -/
def renderFloat (q : ℚ) : String :=
  let n := q.num.toNat
  let intPart := n / q.den
  let r := n % q.den
  let frac := fracDigits q.den r q.den
  ⟨Nat.toDigits 10 intPart⟩ ++ "." ++ (if frac.isEmpty then "0" else ⟨frac⟩)


/-- Strict lexicographic comparison of character lists by Unicode code
point — Python's `<` on strings. -/
def lexLt : List Char → List Char → Bool
  | [], [] => false
  | [], _ :: _ => true
  | _ :: _, [] => false
  | a :: as, b :: bs =>
    decide (a.toNat < b.toNat) || (decide (a.toNat = b.toNat) && lexLt as bs)

/-- `a ≤ b` in Python's string order: `not (b < a)`. -/
def strLeB (a b : String) : Bool := !(lexLt b.data a.data)

/-- The string order `sorted` sorts by, as a proposition. -/
def StrLe (a b : String) : Prop := strLeB a b = true

instance : DecidableRel StrLe := fun a b =>
  inferInstanceAs (Decidable (strLeB a b = true))

/-- `lexLt` is asymmetric. -/
theorem lexLt_asymm : ∀ x y : List Char,
    lexLt x y = true → lexLt y x = true → False := by
  intro x
  induction x with
  | nil => intro y hxy hyx; cases y <;> simp [lexLt] at hxy hyx
  | cons a as ih =>
    intro y hxy hyx
    cases y with
    | nil => simp [lexLt] at hxy
    | cons b bs =>
      simp only [lexLt, Bool.or_eq_true, Bool.and_eq_true, decide_eq_true_eq]
        at hxy hyx
      rcases hxy with h1 | ⟨he1, h1⟩ <;> rcases hyx with h2 | ⟨he2, h2⟩ <;>
        first
        | omega
        | exact ih bs h1 h2

/-- `lexLt` is transitive. -/
theorem lexLt_trans : ∀ x y z : List Char,
    lexLt x y = true → lexLt y z = true → lexLt x z = true := by
  intro x
  induction x with
  | nil =>
    intro y z hxy hyz
    cases y with
    | nil => exact hyz
    | cons b bs =>
      cases z with
      | nil => simp [lexLt] at hyz
      | cons c cs => simp [lexLt]
  | cons a as ih =>
    intro y z hxy hyz
    cases y with
    | nil => simp [lexLt] at hxy
    | cons b bs =>
      cases z with
      | nil => simp [lexLt] at hyz
      | cons c cs =>
        simp only [lexLt, Bool.or_eq_true, Bool.and_eq_true, decide_eq_true_eq]
          at hxy hyz ⊢
        rcases hxy with h1 | ⟨he1, h1⟩ <;> rcases hyz with h2 | ⟨he2, h2⟩
        · left; omega
        · left; omega
        · left; omega
        · right; exact ⟨by omega, ih bs cs h1 h2⟩

/-- Characters with equal code points are equal. -/
theorem char_toNat_inj {a b : Char} (h : a.toNat = b.toNat) : a = b := by
  have ha := Char.ofNat_toNat a
  have hb := Char.ofNat_toNat b
  rw [← ha, ← hb, h]

/-- `lexLt` is connected: incomparable lists are equal. -/
theorem lexLt_connex : ∀ x y : List Char,
    lexLt x y = false → lexLt y x = false → x = y := by
  intro x
  induction x with
  | nil =>
    intro y hxy _
    cases y with
    | nil => rfl
    | cons b bs => simp [lexLt] at hxy
  | cons a as ih =>
    intro y hxy hyx
    cases y with
    | nil => simp [lexLt] at hyx
    | cons b bs =>
      simp only [lexLt, Bool.or_eq_false_iff, Bool.and_eq_false_iff,
        decide_eq_false_iff_not] at hxy hyx
      obtain ⟨hlt1, h1⟩ := hxy
      obtain ⟨hlt2, h2⟩ := hyx
      have he : a.toNat = b.toNat := by omega
      rcases h1 with h1 | h1
      · exact absurd he h1
      · rcases h2 with h2 | h2
        · exact absurd he.symm h2
        · rw [char_toNat_inj he, ih bs (by simpa using h1) (by simpa using h2)]

instance : IsTotal String StrLe := by
  refine ⟨fun a b => ?_⟩
  cases h : lexLt b.data a.data with
  | false => left; simp [StrLe, strLeB, h]
  | true =>
    right
    cases hx : lexLt a.data b.data with
    | false => simp [StrLe, strLeB, hx]
    | true => exact (lexLt_asymm _ _ hx h).elim

instance : IsTrans String StrLe := by
  refine ⟨fun a b c hab hbc => ?_⟩
  have hba : lexLt b.data a.data = false := by
    simpa [StrLe, strLeB] using hab
  have hcb : lexLt c.data b.data = false := by
    simpa [StrLe, strLeB] using hbc
  have hgoal : lexLt c.data a.data = false := by
    cases hca : lexLt c.data a.data with
    | false => rfl
    | true =>
      exfalso
      cases hbc2 : lexLt b.data c.data with
      | false =>
        have heq := lexLt_connex _ _ hbc2 hcb
        rw [← heq] at hca
        simp [hca] at hba
      | true =>
        have := lexLt_trans _ _ _ hbc2 hca
        simp [this] at hba
  simp [StrLe, strLeB, hgoal]

/-- `sorted(list(set(capacity_options)))` of line 225: the distinct
rendered strings in ascending lexicographic (code-point) order. -/
def trustaCapacityOptions (trusta : List Product) : List String :=
  List.insertionSort StrLe ((capacityOptionsRaw renderFloat trusta).dedup)

end QVL

namespace QVL

/-- C6: the capacity-options list contains exactly the distinct
`"<value>TB"` display strings of the classified products with positive
capacity — it is duplicate-free, sorted ascending in the lexicographic
(code-point) string order `StrLe` that `sorted` uses, and has the same
members as the raw rendered list.  Concretely two products of capacity 2
give the single entry `"2.0TB"`, and capacities 10 and 2 render as
`["10.0TB", "2.0TB"]` — lexicographic, not numeric, order. -/
theorem claim6_capacity_options :
    (∀ trusta : List Product,
      (trustaCapacityOptions trusta).Sorted StrLe ∧
      (trustaCapacityOptions trusta).Nodup ∧
      (∀ s, s ∈ trustaCapacityOptions trusta ↔
        s ∈ capacityOptionsRaw renderFloat trusta)) ∧
    trustaCapacityOptions
      [⟨[("Product Name", "A")], some ⟨false, false, "", 2, " - ", false⟩⟩,
       ⟨[("Product Name", "B")], some ⟨false, false, "", 2, " - ", false⟩⟩]
      = ["2.0TB"] ∧
    trustaCapacityOptions
      [⟨[("Product Name", "A")], some ⟨false, false, "", 10, " - ", false⟩⟩,
       ⟨[("Product Name", "B")], some ⟨false, false, "", 2, " - ", false⟩⟩]
      = ["10.0TB", "2.0TB"] := by
  refine ⟨fun trusta => ⟨?_, ?_, fun s => ?_⟩, by decide, by decide⟩
  · exact List.sorted_insertionSort _ _
  · exact (List.perm_insertionSort _ _).nodup_iff.2 (List.nodup_dedup _)
  · exact (List.perm_insertionSort _ _).mem_iff.trans List.mem_dedup

end QVL

namespace QVL

/-- Bumping one vendor adds exactly 1 to the total count. -/
theorem sumCounts_bump (acc : List (String × ℕ)) (v : String) :
    sumCounts (bumpVendor acc v) = sumCounts acc + 1 := by
  induction acc with
  | nil => rfl
  | cons q rest ih =>
    by_cases h : q.1 = v
    · simp [bumpVendor, h, sumCounts]
      omega
    · simp only [bumpVendor]
      rw [← Prod.mk.eta (p := q), if_neg h]
      simp [sumCounts] at ih ⊢
      omega

/-- Bumping vendor `v` adds 1 to the looked-up count of `v` and leaves
every other count unchanged. -/
theorem lookupCount_bump (acc : List (String × ℕ)) (v w : String) :
    lookupCount (bumpVendor acc v) w =
      lookupCount acc w + (if v = w then 1 else 0) := by
  induction acc with
  | nil =>
    by_cases h : v = w
    · simp [bumpVendor, lookupCount, List.find?, h]
    · have hb : (v == w) = false := beq_eq_false_iff_ne.2 h
      simp [bumpVendor, lookupCount, List.find?, hb, h]
  | cons q rest ih =>
    by_cases hq : q.1 = v
    · simp only [bumpVendor]
      rw [← Prod.mk.eta (p := q), if_pos hq]
      by_cases hw : q.1 = w
      · have hvw : v = w := hq ▸ hw
        simp [lookupCount, List.find?, hq, hw, hvw]
      · have hbw : (q.1 == w) = false := beq_eq_false_iff_ne.2 hw
        have hvw : ¬ v = w := fun he => hw (hq.trans he)
        simp [lookupCount, List.find?, hq ▸ hbw, hbw, hvw]
    · simp only [bumpVendor]
      rw [← Prod.mk.eta (p := q), if_neg hq]
      by_cases hw : q.1 = w
      · have hbw : (q.1 == w) = true := beq_iff_eq.2 hw
        have hvw : ¬ v = w := fun he => hq (by rw [hw, ← he])
        simp [lookupCount, List.find?, hbw, hvw]
      · have hbw : (q.1 == w) = false := beq_eq_false_iff_ne.2 hw
        simp only [lookupCount, List.find?, hbw] at ih ⊢
        exact ih

/-- Folding the vendor loop over products adds the length to the total. -/
theorem sumCounts_fold (products : List Product) :
    ∀ acc : List (String × ℕ),
      sumCounts (products.foldl (fun a p => bumpVendor a (vendorOf p)) acc) =
        sumCounts acc + products.length := by
  induction products with
  | nil => intro acc; simp
  | cons p rest ih =>
    intro acc
    simp only [List.foldl_cons, List.length_cons]
    rw [ih (bumpVendor acc (vendorOf p)), sumCounts_bump]
    omega

/-- Folding the vendor loop adds each product's vendor occurrence to the
looked-up count. -/
theorem lookupCount_fold (products : List Product) :
    ∀ (acc : List (String × ℕ)) (w : String),
      lookupCount (products.foldl (fun a p => bumpVendor a (vendorOf p)) acc) w =
        lookupCount acc w + (products.map vendorOf).count w := by
  induction products with
  | nil => intro acc w; simp
  | cons p rest ih =>
    intro acc w
    simp only [List.foldl_cons, List.map_cons]
    rw [ih (bumpVendor acc (vendorOf p)) w, lookupCount_bump]
    rw [List.count_cons]
    by_cases h : vendorOf p = w
    · simp [h]
      omega
    · have hbw : ¬ (w == vendorOf p) = true := by
        simp only [beq_iff_eq]
        exact fun he => h he.symm
      simp [h, hbw]

/-- C5: the vendor distribution maps every vendor value (with `"Unknown"`
for a record without a `"Vendor"` key) to its occurrence count in the full
product list, and the counts sum to the length of the full list; for
vendors `A, B, A, C` the distribution is `A ↦ 2, B ↦ 1, C ↦ 1` with total
4. -/
theorem claim5_vendor_distribution :
    (∀ products : List Product,
      sumCounts (vendorCounts products) = products.length ∧
      ∀ w : String,
        lookupCount (vendorCounts products) w =
          (products.map vendorOf).count w) ∧
    vendorCounts
      [⟨[("Product Name", "P"), ("Vendor", "A")], none⟩,
       ⟨[("Product Name", "Q"), ("Vendor", "B")], none⟩,
       ⟨[("Product Name", "R"), ("Vendor", "A")], none⟩,
       ⟨[("Product Name", "S"), ("Vendor", "C")], none⟩]
      = [("A", 2), ("B", 1), ("C", 1)] := by
  refine ⟨fun products => ⟨?_, fun w => ?_⟩, by decide⟩
  · have := sumCounts_fold products []
    simpa [vendorCounts, sumCounts] using this
  · have := lookupCount_fold products [] w
    simpa [vendorCounts, lookupCount] using this

end QVL

namespace QVL

/-- The comparison `sorted(..., key=lambda x: x[1], reverse=True)` orders
by: `a` may come before `b` when `b`'s count is at most `a`'s. -/
def ByCountDesc (a b : String × ℕ) : Prop := b.2 ≤ a.2

instance : DecidableRel ByCountDesc := fun a b =>
  inferInstanceAs (Decidable (b.2 ≤ a.2))

instance : IsTotal (String × ℕ) ByCountDesc :=
  ⟨fun a b => Nat.le_total b.2 a.2⟩

instance : IsTrans (String × ℕ) ByCountDesc :=
  ⟨fun _ _ _ hab hbc => Nat.le_trans hbc hab⟩

/-- `sorted_vendors` of `display_results` (line 329): Python's stable
descending sort by count, modelled by insertion sort with `ByCountDesc`. -/
def sortedVendors (dist : List (String × ℕ)) : List (String × ℕ) :=
  List.insertionSort ByCountDesc dist

/-- `sorted_vendors[:10]` (line 330): only the first 10 entries are
printed. -/
def displayedVendors (dist : List (String × ℕ)) : List (String × ℕ) :=
  (sortedVendors dist).take 10

/-- The vendor keys in order of first encounter, as the dict loop creates
them. -/
def firstOccur (l : List String) : List String :=
  l.foldl (fun acc v => if v ∈ acc then acc else acc ++ [v]) []

/-- Bumping a vendor keeps the key list if the key exists, else appends
it. -/
theorem keys_bump (acc : List (String × ℕ)) (v : String) :
    (bumpVendor acc v).map Prod.fst =
      if v ∈ acc.map Prod.fst then acc.map Prod.fst
      else acc.map Prod.fst ++ [v] := by
  induction acc with
  | nil => simp [bumpVendor]
  | cons q rest ih =>
    by_cases h : q.1 = v
    · simp only [bumpVendor]
      rw [← Prod.mk.eta (p := q), if_pos h]
      simp [h]
    · simp only [bumpVendor]
      rw [← Prod.mk.eta (p := q), if_neg h]
      have hne : ¬ v = q.1 := fun he => h he.symm
      by_cases hmem : v ∈ rest.map Prod.fst
      · simp [List.map_cons, hmem, hne, ih]
      · simp [List.map_cons, hmem, hne, ih]

/-- The key list of the folded vendor loop is the first-encounter fold of
the vendor names. -/
theorem keys_fold (products : List Product) :
    ∀ acc : List (String × ℕ),
      ((products.foldl (fun a p => bumpVendor a (vendorOf p)) acc).map Prod.fst) =
        (products.map vendorOf).foldl
          (fun ks v => if v ∈ ks then ks else ks ++ [v]) (acc.map Prod.fst) := by
  induction products with
  | nil => intro acc; rfl
  | cons p rest ih =>
    intro acc
    simp only [List.foldl_cons, List.map_cons]
    rw [ih (bumpVendor acc (vendorOf p)), keys_bump]

/-- Filtering one count class through an ordered insert: the inserted
element lands in front of its own class, other classes are untouched. -/
theorem filter_orderedInsert (a : String × ℕ) (c : ℕ) :
    ∀ l : List (String × ℕ),
      (List.orderedInsert ByCountDesc a l).filter (fun p => p.2 == c) =
        if a.2 = c then a :: l.filter (fun p => p.2 == c)
        else l.filter (fun p => p.2 == c) := by
  intro l
  induction l with
  | nil =>
    by_cases h : a.2 = c <;>
      simp [List.orderedInsert, List.filter_cons, h]
  | cons b l ih =>
    by_cases hr : ByCountDesc a b
    · rw [List.orderedInsert, if_pos hr]
      by_cases h : a.2 = c <;> simp [List.filter_cons, h]
    · rw [List.orderedInsert, if_neg hr]
      have hgt : a.2 < b.2 := Nat.lt_of_not_le hr
      by_cases h : a.2 = c
      · have hbne : ¬ b.2 = c := by omega
        simp [List.filter_cons, hbne, ih, h]
      · by_cases hb : b.2 = c <;> simp [List.filter_cons, hb, ih, h]

/-- Stability of the descending sort: each count class keeps its original
relative order. -/
theorem filter_sortedVendors (c : ℕ) :
    ∀ dist : List (String × ℕ),
      (sortedVendors dist).filter (fun p => p.2 == c) =
        dist.filter (fun p => p.2 == c) := by
  intro dist
  induction dist with
  | nil => rfl
  | cons a l ih =>
    show (List.orderedInsert ByCountDesc a
      (List.insertionSort ByCountDesc l)).filter (fun p => p.2 == c) = _
    rw [filter_orderedInsert]
    by_cases h : a.2 = c
    · rw [if_pos h, List.filter_cons, if_pos (by simpa using h)]
      exact congrArg (List.cons a) ih
    · rw [if_neg h, List.filter_cons, if_neg (by simpa using h)]
      exact ih

/-- C7: the rendered vendor distribution is iterated in descending count
order (`Sorted ByCountDesc`), with ties between equal counts kept in the
order the vendors were first encountered — the distribution's key list is
the first-encounter sequence of vendor names and each count class passes
through the sort unchanged — and only the first 10 entries are printed. -/
theorem claim7_vendor_display :
    ∀ products : List Product,
      (sortedVendors (vendorCounts products)).Sorted ByCountDesc ∧
      (∀ c : ℕ,
        (sortedVendors (vendorCounts products)).filter (fun p => p.2 == c) =
          (vendorCounts products).filter (fun p => p.2 == c)) ∧
      (vendorCounts products).map Prod.fst = firstOccur (products.map vendorOf) ∧
      displayedVendors (vendorCounts products) =
        (sortedVendors (vendorCounts products)).take 10 ∧
      (displayedVendors (vendorCounts products)).length ≤ 10 := by
  intro products
  refine ⟨List.sorted_insertionSort _ _, fun c => filter_sortedVendors c _,
    ?_, rfl, ?_⟩
  · have := keys_fold products []
    simpa [vendorCounts, firstOccur] using this
  · simp [displayedVendors]

end QVL

namespace QVL

/-- `gen5_count` of `generate_qvl_summary` (lines 206–209). -/
def gen5Count (trusta : List Product) : ℕ :=
  (trusta.filter
    (fun p => (p.analysis.map (fun a => a.is_gen5)).getD false)).length

/-- `total_capacity` of `generate_qvl_summary` (lines 211–213). -/
def totalTrustaCapacity (trusta : List Product) : ℚ :=
  trusta.foldl (fun acc p =>
    let cap := (p.analysis.map (fun a => a.capacity_tb)).getD 0
    if 0 < cap then acc + cap else acc) 0

/-- The `qvl_summary` dict of `generate_qvl_summary` (lines 221–229). -/
structure QvlSummary where
  total_nvme_products_in_qvl : ℕ
  trusta_products_found : ℕ
  trusta_gen5_products : ℕ
  trusta_capacity_options : List String
  total_trusta_capacity_tb : ℚ
  vendor_distribution : List (String × ℕ)
deriving DecidableEq

/-- `generate_qvl_summary` (lines 197–239): a pure, total reduction of the
two product lists. -/
def generateQvlSummary (all trusta : List Product) : QvlSummary :=
  { total_nvme_products_in_qvl := all.length
    trusta_products_found := trusta.length
    trusta_gen5_products := gen5Count trusta
    trusta_capacity_options := trustaCapacityOptions trusta
    total_trusta_capacity_tb := totalTrustaCapacity trusta
    vendor_distribution := vendorCounts all }

/-- The environment-dependent outcomes of the run's fallible stages:
whether `setup_driver` succeeds, whether navigation (fetch, settle,
table-presence wait) succeeds, and the located QVL table — `none` when
`find_element` raises, which `extract_qvl_table_data` turns into
failure. -/
structure CrawlEnv where
  driverOk : Bool
  pageOk : Bool
  table : Option (List String × List (List String))

/-- The populated result accumulator of a successful run. -/
structure RunResults where
  all_nvme_products : List Product
  trusta_products_found : List Product
  qvl_summary : QvlSummary
  search_successful : Bool
deriving DecidableEq

/-- `run_qvl_crawler` (lines 241–268): each stage runs once; any stage
failure aborts with `none`; `generate_qvl_summary` is total and cannot
fail. -/
def runQvlCrawler (env : CrawlEnv) : Option RunResults :=
  if env.driverOk = false then none
  else if env.pageOk = false then none
  else
    match env.table with
    | none => none
    | some (headers, rows) =>
      match extractTable headers rows with
      | none => none
      | some (all, tr) =>
        some ⟨all, tr, generateQvlSummary all tr, decide (0 < tr.length)⟩

/-- `main` (lines 362–379): exit code, and whether the console report and
JSON document were produced (`display_results` / `save_results` run only
on success). -/
def mainExit (env : CrawlEnv) : ℕ × Bool :=
  match runQvlCrawler env with
  | some _ => (0, true)
  | none => (1, false)

/-- C8: the process exits 0 exactly when driver setup, navigation and table
extraction all succeed — independently of how many records matched, since
the condition never inspects the classified list — exits 1 otherwise, and
produces the console/JSON report exactly on exit 0. -/
theorem claim8_exit_contract :
    ∀ env : CrawlEnv,
      ((mainExit env).1 = 0 ↔
        (env.driverOk = true ∧ env.pageOk = true ∧
          ∃ headers rows, env.table = some (headers, rows) ∧
            extractTable headers rows ≠ none)) ∧
      ((mainExit env).1 = 0 ∨ (mainExit env).1 = 1) ∧
      ((mainExit env).1 = 1 → (mainExit env).2 = false) ∧
      ((mainExit env).1 = 0 → (mainExit env).2 = true) := by
  intro env
  obtain ⟨d, g, t⟩ := env
  cases d
  · simp [mainExit, runQvlCrawler]
  · cases g
    · simp [mainExit, runQvlCrawler]
    · cases t with
      | none => simp [mainExit, runQvlCrawler]
      | some tab =>
        obtain ⟨headers, rows⟩ := tab
        cases hx : extractTable headers rows with
        | none => simp [mainExit, runQvlCrawler, hx]
        | some pair =>
          obtain ⟨all, tr⟩ := pair
          have hm : mainExit ⟨true, true, some (headers, rows)⟩ = (0, true) := by
            simp [mainExit, runQvlCrawler, hx]
          rw [hm]
          refine ⟨?_, by simp, by simp, by simp⟩
          constructor
          · intro _
            exact ⟨rfl, rfl, headers, rows, rfl, by simp [hx]⟩
          · intro _
            rfl

/-- Witness for C8: a run whose table parses but matches nothing still
exits 0 and produces the report. -/
theorem claim8_witness :
    (mainExit ⟨true, true, some (["Product Name"], [["abc"]])⟩).1 = 0 ∧
    (mainExit ⟨true, true, some (["Product Name"], [["abc"]])⟩).2 = true := by
  have h := claim8_exit_contract ⟨true, true, some (["Product Name"], [["abc"]])⟩
  have h0 : (mainExit ⟨true, true, some (["Product Name"], [["abc"]])⟩).1 = 0 :=
    h.1.mpr ⟨rfl, rfl, ["Product Name"], [["abc"]], rfl, by decide⟩
  exact ⟨h0, h.2.2.2 h0⟩

/-- C10: a record whose `"Vendor"` field is present but empty is counted
under the key `""`, not `"Unknown"`; `"Unknown"` is used exactly when the
record has no `"Vendor"` key at all. -/
theorem claim10_empty_vendor :
    (∀ p : Product, recGet p.record "Vendor" = some "" → vendorOf p = "") ∧
    (∀ p : Product, recGet p.record "Vendor" = none → vendorOf p = "Unknown") ∧
    vendorCounts [⟨[("Product Name", "X"), ("Vendor", "")], none⟩]
      = [("", 1)] ∧
    ("" : String) ≠ "Unknown" := by
  refine ⟨fun p h => ?_, fun p h => ?_, by decide, by decide⟩
  · simp [vendorOf, recGetD, h]
  · simp [vendorOf, recGetD, h]

/-- Witness for C10 at concrete records with empty and missing vendor
fields. -/
theorem claim10_witness :
    vendorOf ⟨[("Vendor", "")], none⟩ = "" ∧
    vendorOf ⟨[("Product Name", "Y")], none⟩ = "Unknown" := by
  have h := claim10_empty_vendor
  exact ⟨h.1 ⟨[("Vendor", "")], none⟩ (by decide),
    h.2.1 ⟨[("Product Name", "Y")], none⟩ (by decide)⟩

end QVL
